import Mathlib

/-!
Shallow embedding of the Unraid VM inventory plugin
(`plugins/inventory/vm_inventory.py`).

Strings are modelled as `List Char`.  Python regex patterns are modelled as
injectable boolean matchers (`List Char → Bool`), following the prefix-match
semantics of `re.match`; the concrete default interface pattern is
modelled by `matchEnW` below.  The word-character class of the regexes and
`str.lower` are modelled over ASCII, which covers the hypervisor's VM-name
and `virsh` output alphabet.
-/

namespace VmInventory

/-- ASCII whitespace recognised by Python's `str.split()` with no argument. -/
def isPySpace (c : Char) : Bool :=
  c = ' ' || c = '\t' || c = '\n' || c = '\r' || c = '\x0b' || c = '\x0c'

/-- Word characters `[A-Za-z0-9_]`: the characters kept by `re.sub(r"\W", "", s)`. -/
def isWordChar (c : Char) : Bool :=
  (65 ≤ c.toNat && c.toNat ≤ 90) || (97 ≤ c.toNat && c.toNat ≤ 122) ||
    (48 ≤ c.toNat && c.toNat ≤ 57) || c.toNat == 95

/-- One character of Python's `str.lower()` (ASCII range). -/
def lowerChar (c : Char) : Char :=
  if 65 ≤ c.toNat && c.toNat ≤ 90 then Char.ofNat (c.toNat + 32) else c

/-- One character of `s.replace(" ", "_")`. -/
def replSpace (c : Char) : Char := if c = ' ' then '_' else c

/-- One character of `s.replace("-", "_")`. -/
def replHyphen (c : Char) : Char := if c = '-' then '_' else c

/-- Accumulator-based whitespace tokenizer; `acc` holds the reversed current token. -/
def tokenizeAux : List Char → List Char → List (List Char)
  | [], acc => if acc.isEmpty then [] else [acc.reverse]
  | c :: rest, acc =>
    if isPySpace c then
      if acc.isEmpty then tokenizeAux rest [] else acc.reverse :: tokenizeAux rest []
    else tokenizeAux rest (c :: acc)

/-- Python `line.split()`: split on runs of whitespace, no empty tokens. -/
def tokenize (line : List Char) : List (List Char) := tokenizeAux line []

/-- Accumulator for `splitlinesPy`; `acc` holds the reversed current line. -/
def splitlinesAux : List Char → List Char → List (List Char)
  | [], acc => if acc.isEmpty then [] else [acc.reverse]
  | '\n' :: rest, acc => acc.reverse :: splitlinesAux rest []
  | c :: rest, acc => splitlinesAux rest (c :: acc)

/-- Python `s.splitlines()` over `'\n'`-terminated text: every newline ends a
line (possibly empty); a final unterminated segment is kept only if non-empty. -/
def splitlinesPy (s : List Char) : List (List Char) := splitlinesAux s []

/-- Python `addr.split("/")[0]`: the part of the address before the first `/`. -/
def stripPrefixLen (addr : List Char) : List Char := addr.takeWhile (fun c => c ≠ '/')

/-- Whether the list starts with the four characters `ipv4`. -/
def startsWithIpv4 : List Char → Bool
  | a :: b :: c :: d :: _ => a = 'i' && b = 'p' && c = 'v' && d = '4'
  | _ => false

/-- Python `"ipv4" in line`: substring occurrence anywhere in the line. -/
def hasIpv4 : List Char → Bool
  | [] => false
  | c :: rest => startsWithIpv4 (c :: rest) || hasIpv4 rest

/-- Matcher for `re.match` with the default interface pattern (`en` followed by
one or more word characters): the string starts with `en` and a word character. -/
def matchEnW : List Char → Bool
  | 'e' :: 'n' :: c :: _ => isWordChar c
  | _ => false

/-- `InventoryModule._parse_virsh_domifaddr`: scan the report lines; on the first
line that contains `ipv4` as a substring and whose first whitespace token
matches the interface pattern, return the last token with any `/...` suffix
stripped; otherwise `none`. -/
def parse_virsh_domifaddr (lines : List (List Char)) (pattern : List Char → Bool) :
    Option (List Char) :=
  match lines with
  | [] => none
  | line :: rest =>
    if hasIpv4 line && pattern ((tokenize line).headD []) then
      some (stripPrefixLen ((tokenize line).getLastD []))
    else parse_virsh_domifaddr rest pattern

/-- `_parse_virsh_domifaddr` with Python's partiality made explicit: indexing
`splitted_line[0]` / `splitted_line[-1]` on an empty token list is an error,
and the matcher itself may raise (`re` errors on an invalid pattern); both
kinds of exception land in the same `except` block of the caller. -/
def parseChecked (lines : List (List Char)) (pattern : List Char → Except Unit Bool) :
    Except Unit (Option (List Char)) :=
  match lines with
  | [] => .ok none
  | line :: rest =>
    if hasIpv4 line then
      match (tokenize line).head? with
      | none => .error ()
      | some t0 =>
        match pattern t0 with
        | .error e => .error e
        | .ok true =>
          match (tokenize line).getLast? with
          | none => .error ()
          | some tl => .ok (some (stripPrefixLen tl))
        | .ok false => parseChecked rest pattern
    else parseChecked rest pattern

/-- `re.sub(r"_+", "_", s)`: squeeze runs of underscores; `prevU` records whether
the previous kept character closed an underscore run. -/
def squeeze : Bool → List Char → List Char
  | _, [] => []
  | prevU, c :: rest =>
    if c = '_' then
      if prevU then squeeze true rest else '_' :: squeeze true rest
    else c :: squeeze false rest

/-- The name normalization applied at inventory-addition time:
`vm.replace(" ", "_").replace("-", "_").lower()`, then `re.sub(r"\W", "", vm)`,
then `re.sub(r"_+", "_", vm)`. -/
def normalize (s : List Char) : List Char :=
  squeeze false ((((s.map replSpace).map replHyphen).map lowerChar).filter isWordChar)

/-- The address-selection rule as the specification words it: the first line
whose protocol field (third whitespace token, per the expected columns
`[interface-name, MAC, protocol, address/prefix]`) equals `ipv4` and whose
first token matches the interface pattern; the address is returned with any
`/prefix-length` suffix stripped. -/
def resolve_address_spec (lines : List (List Char)) (pattern : List Char → Bool) :
    Option (List Char) :=
  (lines.find? fun line =>
      ((tokenize line)[2]? == some "ipv4".toList) && pattern ((tokenize line).headD [])).map
    (fun line => stripPrefixLen ((tokenize line).getLastD []))

/-- The selection rule with the predicate the code actually applies: the first
line containing `ipv4` as a substring anywhere and whose first token matches
the interface pattern. -/
def resolve_address_amended (lines : List (List Char)) (pattern : List Char → Bool) :
    Option (List Char) :=
  (lines.find? fun line => hasIpv4 line && pattern ((tokenize line).headD [])).map
    (fun line => stripPrefixLen ((tokenize line).getLastD []))

/-- The enumeration step of `parse` (lines 98-107): split the command output
into lines and keep the names accepted by the VM-name pattern. -/
def list_vms (output : List Char) (pattern : List Char → Bool) : List (List Char) :=
  (splitlinesPy output).filter pattern

/-- The enumeration step as the specification words it: split into lines,
discard empty lines, then keep the names accepted by the pattern. -/
def list_vms_spec (output : List Char) (pattern : List Char → Bool) : List (List Char) :=
  ((splitlinesPy output).filter (fun l => !l.isEmpty)).filter pattern

/-- Step 1 of the specification's reference transform: replace every space and
hyphen with an underscore (one pass). -/
def replBoth (c : Char) : Char := if c = ' ' || c = '-' then '_' else c

/-- Step 4 of the specification's reference transform: collapse every run of
two-or-more consecutive underscores into a single underscore, here phrased by
dropping the first of each adjacent underscore pair. -/
def collapseRuns : List Char → List Char
  | [] => []
  | [c] => [c]
  | c :: d :: rest =>
    if c = '_' && d = '_' then collapseRuns (d :: rest)
    else c :: collapseRuns (d :: rest)

/-- The specification's four-step reference normalization, applied in order. -/
def refNormalize (s : List Char) : List Char :=
  collapseRuns (((s.map replBoth).map lowerChar).filter isWordChar)

/-- The sample `virsh domifaddr` table from the source docstring / spec §4.3. -/
def sampleReport : List (List Char) :=
  [" Name       MAC address          Protocol     Address".toList,
   "-------------------------------------------------------------------------------".toList,
   " lo         00:00:00:00:00:00    ipv4         127.0.0.1/8".toList,
   " -          -                    ipv6         ::1/128".toList,
   " enp1s0     52:54:00:00:f0:f9    ipv4         192.168.1.86/24".toList,
   " -          -                    ipv6         fe80::5054:ff:fef0:f9df/64".toList]

/-- The environment one run of `InventoryModule.parse` interacts with, after the
SSH session has been established: the outcome of the enumeration command
(`exec_command` plus `read().decode()`, which the code wraps in one `try`),
the outcome of the per-VM address command, the two configured patterns (the
interface matcher may raise, as `re` does on an invalid pattern), and the
optional `ansible_user` setting. -/
structure RunEnv where
  listExec : Except (List Char) (List Char)
  domifExec : List Char → Except (List Char) (List Char)
  namePat : List Char → Bool
  ifaceMatch : List Char → Except Unit Bool
  ansibleUser : Option (List Char)

/-- One host record added to the inventory: normalized name, `ansible_host`
address, and the optional `ansible_user` variable. -/
structure Host where
  name : List Char
  addr : List Char
  user : Option (List Char)

/-- The observable outcome of one run: the fatal error or the sequence of host
additions, plus whether `client.close()` was reached. -/
structure RunOutcome where
  result : Except (List Char) (List Host)
  closed : Bool

/-- Python dict insertion `m[k] = v`: an existing key keeps its position and is
updated in place, a new key is appended. -/
def dictInsert (m : List (List Char × List Char)) (k v : List Char) :
    List (List Char × List Char) :=
  if m.any (fun p => p.1 == k) then m.map (fun p => if p.1 == k then (k, v) else p)
  else m ++ [(k, v)]

/-- `if ansible_user:` — the variable is attached only when the configured value
is present and truthy (non-empty). -/
def userVar : Option (List Char) → Option (List Char)
  | none => none
  | some u => if u.isEmpty then none else some u

/-- The per-VM loop of `parse` (lines 116-132), accumulating `vms_ips`: a failing
address command raises (fatal); a parse exception or a falsy parsed address
skips the VM and continues. -/
def queryLoop (env : RunEnv) : List (List Char) → List (List Char × List Char) →
    Except (List Char) (List (List Char × List Char))
  | [], acc => .ok acc
  | vm :: rest, acc =>
    match env.domifExec vm with
    | .error e => .error ("Error getting IP for VM ".toList ++ vm ++ ": ".toList ++ e)
    | .ok out =>
      match parseChecked (splitlinesPy out) env.ifaceMatch with
      | .ok (some ip) =>
        if ip.isEmpty then queryLoop env rest acc
        else queryLoop env rest (dictInsert acc vm ip)
      | .ok none => queryLoop env rest acc
      | .error _ => queryLoop env rest acc

/-- `InventoryModule.parse` after the SSH session is up: enumerate (fatal on
command failure), filter by the name pattern, return early when nothing
matched, then query every VM and add the collected hosts.  `closed` records
whether the single `client.close()` at the end of the method was executed. -/
def parse (env : RunEnv) : RunOutcome :=
  match env.listExec with
  | .error e => ⟨.error ("Error listing VMs: ".toList ++ e), false⟩
  | .ok out =>
    let vms := list_vms out env.namePat
    if vms.isEmpty then ⟨.ok [], false⟩
    else
      match queryLoop env vms [] with
      | .error e => ⟨.error e, false⟩
      | .ok ips => ⟨.ok (ips.map fun p => ⟨normalize p.1, p.2, userVar env.ansibleUser⟩), true⟩

example : normalize "My VM-1".toList = "my_vm_1".toList := by decide
example : tokenize " lo   00:00  ipv4  127.0.0.1/8".toList =
    ["lo".toList, "00:00".toList, "ipv4".toList, "127.0.0.1/8".toList] := by decide
example : splitlinesPy "a\n\nb".toList = ["a".toList, [], "b".toList] := by decide
example : splitlinesPy "a\nb\n".toList = ["a".toList, "b".toList] := by decide
example : hasIpv4 "x ipv4 y".toList = true := by decide
example : matchEnW "enp1s0".toList = true := by decide
example : matchEnW "lo".toList = false := by decide
example : parse_virsh_domifaddr sampleReport matchEnW = some "192.168.1.86".toList := by decide
example : resolve_address_spec ["ipv4if x ipv6 fe80::1/64".toList] (fun _ => true) = none := by
  decide
example : parse_virsh_domifaddr ["ipv4if x ipv6 fe80::1/64".toList] (fun _ => true) =
    some "fe80::1".toList := by decide
example : normalize "!".toList = [] := by decide
example : normalize "web--app".toList = "web_app".toList := by decide
example : refNormalize "web--app".toList = "web_app".toList := by decide
example : list_vms "a\n\nb".toList (fun _ => true) = ["a".toList, [], "b".toList] := by decide
example : (parse ⟨.ok [], fun _ => .ok [], fun _ => true, fun _ => .ok false, none⟩).closed
    = false := by decide

/-- Characters surviving `normalize` with a non-empty result: word characters
and the two characters rewritten to underscores. -/
def survivesChar (c : Char) : Bool := isWordChar c || c = ' ' || c = '-'

section CharLemmas

theorem toNat_ofNat_of_valid {n : Nat} (h : n.isValidChar) : (Char.ofNat n).toNat = n := by
  rw [Char.ofNat, dif_pos h]
  rfl

theorem toNat_lowerChar (c : Char) :
    (lowerChar c).toNat = if 65 ≤ c.toNat ∧ c.toNat ≤ 90 then c.toNat + 32 else c.toNat := by
  by_cases h : 65 ≤ c.toNat ∧ c.toNat ≤ 90
  · have hv : (c.toNat + 32).isValidChar := Or.inl (by omega)
    simp [lowerChar, h, toNat_ofNat_of_valid hv]
  · simp only [lowerChar]
    rw [if_neg, if_neg h]
    simp only [Bool.and_eq_true, decide_eq_true_eq, not_and]
    exact fun h1 h2 => h ⟨h1, h2⟩

theorem lowerChar_eq_self_of_not_upper {c : Char} (h : ¬(65 ≤ c.toNat ∧ c.toNat ≤ 90)) :
    lowerChar c = c := by
  simp only [lowerChar]
  rw [if_neg]
  simp only [Bool.and_eq_true, decide_eq_true_eq, not_and]
  exact fun h1 h2 => h ⟨h1, h2⟩

theorem lowerChar_idem (c : Char) : lowerChar (lowerChar c) = lowerChar c := by
  apply lowerChar_eq_self_of_not_upper
  rw [toNat_lowerChar c]
  by_cases h : 65 ≤ c.toNat ∧ c.toNat ≤ 90
  · rw [if_pos h]; omega
  · rw [if_neg h]; exact h

theorem isWordChar_iff {c : Char} : isWordChar c = true ↔
    (65 ≤ c.toNat ∧ c.toNat ≤ 90) ∨ (97 ≤ c.toNat ∧ c.toNat ≤ 122) ∨
      (48 ≤ c.toNat ∧ c.toNat ≤ 57) ∨ c.toNat = 95 := by
  simp only [isWordChar, Bool.or_eq_true, Bool.and_eq_true, decide_eq_true_eq, beq_iff_eq]
  tauto

theorem isWordChar_lowerChar_of {c : Char} (h : isWordChar c = true) :
    isWordChar (lowerChar c) = true := by
  rw [isWordChar_iff, toNat_lowerChar c]
  rw [isWordChar_iff] at h
  by_cases hu : 65 ≤ c.toNat ∧ c.toNat ≤ 90
  · rw [if_pos hu]; omega
  · rw [if_neg hu]; exact h

theorem lowerChar_eq_self_of_not_word {c : Char} (h : isWordChar c = false) :
    lowerChar c = c := by
  apply lowerChar_eq_self_of_not_upper
  intro hu
  rw [isWordChar_iff.mpr (Or.inl hu)] at h
  exact Bool.true_eq_false.mp h

theorem ne_space_of_word {c : Char} (h : isWordChar c = true) : c ≠ ' ' := by
  intro rfl_h
  subst rfl_h
  exact absurd h (by decide)

theorem ne_hyphen_of_word {c : Char} (h : isWordChar c = true) : c ≠ '-' := by
  intro rfl_h
  subst rfl_h
  exact absurd h (by decide)

end CharLemmas

section ListLemmas

theorem map_id_of {f : Char → Char} :
    ∀ {l : List Char}, (∀ c ∈ l, f c = c) → l.map f = l
  | [], _ => rfl
  | c :: rest, h => by
    simp only [List.map_cons, h c (List.mem_cons_self c rest)]
    rw [map_id_of fun d hd => h d (List.mem_cons_of_mem c hd)]

theorem mem_squeeze {c : Char} : ∀ {b : Bool} {l : List Char}, c ∈ squeeze b l → c ∈ l := by
  intro b l
  induction l generalizing b with
  | nil => simp [squeeze]
  | cons a rest ih =>
    intro h
    by_cases ha : a = '_'
    · subst ha
      cases b with
      | true => simp only [squeeze, if_pos rfl, if_pos rfl] at h
                exact List.mem_cons_of_mem _ (ih h)
      | false =>
        simp only [squeeze, if_pos rfl] at h
        rcases List.mem_cons.mp h with h1 | h2
        · exact h1 ▸ List.mem_cons_self _ _
        · exact List.mem_cons_of_mem _ (ih h2)
    · simp only [squeeze, if_neg ha] at h
      rcases List.mem_cons.mp h with h1 | h2
      · exact h1 ▸ List.mem_cons_self _ _
      · exact List.mem_cons_of_mem _ (ih h2)

theorem squeeze_squeeze : ∀ (l : List Char) (b : Bool), squeeze b (squeeze b l) = squeeze b l := by
  intro l
  induction l with
  | nil => intro b; rfl
  | cons a rest ih =>
    intro b
    by_cases ha : a = '_'
    · subst ha
      cases b with
      | true => exact ih true
      | false => exact congrArg (List.cons '_') (ih true)
    · simp only [squeeze, if_neg ha]
      rw [ih false]

theorem squeeze_ne_nil : ∀ {l : List Char}, l ≠ [] → squeeze false l ≠ []
  | [], h => absurd rfl h
  | a :: rest, _ => by
    by_cases ha : a = '_' <;> simp [squeeze, ha]

theorem squeeze_eq_collapseRuns (l : List Char) : squeeze false l = collapseRuns l := by
  suffices h : ∀ m : List Char,
      squeeze false m = collapseRuns m ∧ '_' :: squeeze true m = collapseRuns ('_' :: m) from
    (h l).1
  intro m
  induction m with
  | nil => exact ⟨rfl, rfl⟩
  | cons a rest ih =>
    by_cases ha : a = '_'
    · subst ha
      refine ⟨?_, ?_⟩
      · simp only [squeeze, if_pos rfl]
        exact ih.2
      · simp only [squeeze, if_pos rfl, collapseRuns, if_pos rfl]
        exact ih.2
    · have h1 : squeeze false (a :: rest) = collapseRuns (a :: rest) := by
        simp only [squeeze, if_neg ha]
        rw [ih.1]
        cases rest with
        | nil => rfl
        | cons d rest' =>
          simp only [collapseRuns]
          rw [if_neg (by simp [ha])]
      refine ⟨h1, ?_⟩
      have h2 : collapseRuns ('_' :: a :: rest) = '_' :: collapseRuns (a :: rest) := by
        simp only [collapseRuns]
        rw [if_neg (by simp [ha])]
      rw [h2, ← h1]
      simp only [squeeze, if_neg ha]

theorem tokenizeAux_eq_nil : ∀ (l : List Char) (acc : List Char),
    tokenizeAux l acc = [] → acc = [] ∧ ∀ c ∈ l, isPySpace c = true := by
  intro l
  induction l with
  | nil =>
    intro acc h
    simp only [tokenizeAux] at h
    by_cases ha : acc.isEmpty
    · exact ⟨List.isEmpty_iff.mp ha, by simp⟩
    · rw [if_neg ha] at h; exact absurd h (by simp)
  | cons c rest ih =>
    intro acc h
    simp only [tokenizeAux] at h
    by_cases hc : isPySpace c
    · rw [if_pos hc] at h
      by_cases ha : acc.isEmpty
      · rw [if_pos ha] at h
        have := ih [] h
        exact ⟨List.isEmpty_iff.mp ha, by
          intro d hd
          rcases List.mem_cons.mp hd with h1 | h2
          · exact h1 ▸ hc
          · exact this.2 d h2⟩
      · rw [if_neg ha] at h; exact absurd h (by simp)
    · rw [if_neg hc] at h
      have := ih (c :: acc) h
      exact absurd this.1 (by simp)

theorem startsWithIpv4_mem {l : List Char} (h : startsWithIpv4 l = true) : 'i' ∈ l := by
  rcases l with _ | ⟨a, _ | ⟨b, _ | ⟨c, _ | ⟨d, t⟩⟩⟩⟩ <;> simp [startsWithIpv4] at h
  exact h.1.1.1 ▸ List.mem_cons_self _ _

theorem hasIpv4_mem : ∀ {l : List Char}, hasIpv4 l = true → 'i' ∈ l := by
  intro l
  induction l with
  | nil => simp [hasIpv4]
  | cons c rest ih =>
    intro h
    simp only [hasIpv4, Bool.or_eq_true] at h
    rcases h with h1 | h2
    · exact startsWithIpv4_mem h1
    · exact List.mem_cons_of_mem _ (ih h2)

theorem tokenize_ne_nil_of_hasIpv4 {line : List Char} (h : hasIpv4 line = true) :
    tokenize line ≠ [] := by
  intro hnil
  have hall := (tokenizeAux_eq_nil line [] hnil).2
  have := hall 'i' (hasIpv4_mem h)
  exact absurd this (by decide)

theorem getLast?_of_ne_nil {α : Type} (d : α) : ∀ {l : List α}, l ≠ [] →
    l.getLast? = some (l.getLastD d)
  | [], h => absurd rfl h
  | [a], _ => rfl
  | a :: b :: rest, _ => by
    rw [List.getLast?_cons_cons, getLast?_of_ne_nil d (l := b :: rest) (by simp)]
    rfl

theorem filter_comm_nonempty {p : List Char → Bool} (hp : p [] = false) :
    ∀ l : List (List Char), l.filter p = (l.filter (fun x => !x.isEmpty)).filter p := by
  intro l
  induction l with
  | nil => rfl
  | cons a rest ih =>
    cases a with
    | nil => simp [List.filter_cons, hp, ih]
    | cons x xs => simp [List.filter_cons, ih]

end ListLemmas

section ParseLemmas

theorem parse_eq_amended (lines : List (List Char)) (pattern : List Char → Bool) :
    parse_virsh_domifaddr lines pattern = resolve_address_amended lines pattern := by
  induction lines with
  | nil => rfl
  | cons line rest ih =>
    simp only [parse_virsh_domifaddr, resolve_address_amended]
    by_cases hg : (hasIpv4 line && pattern ((tokenize line).headD [])) = true
    · rw [if_pos hg,
        List.find?_cons_of_pos (p := fun l => hasIpv4 l && pattern ((tokenize l).headD [])) rest hg]
      rfl
    · rw [if_neg hg,
        List.find?_cons_of_neg (p := fun l => hasIpv4 l && pattern ((tokenize l).headD [])) rest hg]
      exact ih

theorem parseChecked_pure (lines : List (List Char)) (pattern : List Char → Bool) :
    parseChecked lines (fun s => .ok (pattern s)) = .ok (parse_virsh_domifaddr lines pattern) := by
  induction lines with
  | nil => rfl
  | cons line rest ih =>
    cases hi : hasIpv4 line with
    | false => simp [parseChecked, parse_virsh_domifaddr, hi, ih]
    | true =>
      obtain ⟨t, ts, hts⟩ : ∃ t ts, tokenize line = t :: ts := by
        cases h : tokenize line with
        | nil => exact absurd h (tokenize_ne_nil_of_hasIpv4 hi)
        | cons t ts => exact ⟨t, ts, rfl⟩
      have hlast := getLast?_of_ne_nil ([] : List Char) (l := t :: ts) (by simp)
      cases hp : pattern t with
      | false =>
        simp only [parseChecked, parse_virsh_domifaddr, hi, hts, if_true, List.head?_cons,
          List.headD_cons, hp, Bool.and_false, Bool.false_eq_true, if_false]
        exact ih
      | true =>
        simp only [parseChecked, parse_virsh_domifaddr, hi, hts, if_true, List.head?_cons,
          List.headD_cons, hp, Bool.and_true, hlast]

theorem parse_none_of_no_match (lines : List (List Char)) (pattern : List Char → Bool)
    (h : ∀ line ∈ lines,
      ¬(hasIpv4 line = true ∧ pattern ((tokenize line).headD []) = true)) :
    parse_virsh_domifaddr lines pattern = none := by
  induction lines with
  | nil => rfl
  | cons line rest ih =>
    have hline := h line (List.mem_cons_self _ _)
    have hg : (hasIpv4 line && pattern ((tokenize line).headD [])) = false := by
      cases h1 : hasIpv4 line with
      | false => rfl
      | true =>
        cases h2 : pattern ((tokenize line).headD []) with
        | false => rfl
        | true => exact absurd ⟨h1, h2⟩ hline
    simp only [parse_virsh_domifaddr, hg]
    exact ih fun l hl => h l (List.mem_cons_of_mem _ hl)

end ParseLemmas

section NormalizeLemmas

theorem replBoth_eq (c : Char) : replHyphen (replSpace c) = replBoth c := by
  by_cases h1 : c = ' '
  · subst h1; rfl
  · by_cases h2 : c = '-'
    · subst h2; rfl
    · simp [replSpace, replHyphen, replBoth, h1, h2]

theorem normalize_eq_refNormalize (s : List Char) : normalize s = refNormalize s := by
  have hmap : (s.map replSpace).map replHyphen = s.map replBoth := by
    rw [List.map_map, show replHyphen ∘ replSpace = replBoth from funext replBoth_eq]
  unfold normalize refNormalize
  rw [hmap, squeeze_eq_collapseRuns]

theorem mem_normalize_word {c : Char} {s : List Char} (h : c ∈ normalize s) :
    isWordChar c = true ∧ lowerChar c = c := by
  have h1 := mem_squeeze h
  have h2 := List.mem_filter.mp h1
  obtain ⟨d, _, rfl⟩ := List.mem_map.mp h2.1
  exact ⟨h2.2, lowerChar_idem d⟩

theorem normalize_idem (s : List Char) : normalize (normalize s) = normalize s := by
  have hword : ∀ c ∈ normalize s, isWordChar c = true := fun c hc => (mem_normalize_word hc).1
  have h1 : (normalize s).map replSpace = normalize s :=
    map_id_of fun c hc => by
      rw [replSpace, if_neg (ne_space_of_word (hword c hc))]
  have h2 : (normalize s).map replHyphen = normalize s :=
    map_id_of fun c hc => by
      rw [replHyphen, if_neg (ne_hyphen_of_word (hword c hc))]
  have h3 : (normalize s).map lowerChar = normalize s :=
    map_id_of fun c hc => (mem_normalize_word hc).2
  have h4 : (normalize s).filter isWordChar = normalize s := List.filter_eq_self.mpr hword
  conv_lhs => rw [normalize]
  rw [h1, h2, h3, h4, normalize]
  exact squeeze_squeeze _ false

theorem normalize_ne_nil_iff (s : List Char) :
    normalize s ≠ [] ↔ ∃ c ∈ s, survivesChar c = true := by
  constructor
  · intro hne
    by_contra hno
    push_neg at hno
    apply hne
    have hfil : (((s.map replSpace).map replHyphen).map lowerChar).filter isWordChar = [] := by
      rw [List.filter_eq_nil_iff]
      intro a ha
      obtain ⟨b, hb, rfl⟩ := List.mem_map.mp ha
      obtain ⟨b2, hb2, rfl⟩ := List.mem_map.mp hb
      obtain ⟨c, hc, rfl⟩ := List.mem_map.mp hb2
      have hsurv : survivesChar c = false := by
        cases hsv : survivesChar c
        · rfl
        · exact absurd hsv (hno c hc)
      simp only [survivesChar, Bool.or_eq_false_iff, decide_eq_false_iff_not] at hsurv
      obtain ⟨⟨hw, hsp⟩, hhy⟩ := hsurv
      rw [replSpace, if_neg hsp, replHyphen, if_neg hhy, lowerChar_eq_self_of_not_word hw]
      simp [hw]
    rw [normalize, hfil]
    rfl
  · rintro ⟨c, hc, hs⟩
    have hw : isWordChar (lowerChar (replHyphen (replSpace c))) = true := by
      simp only [survivesChar, Bool.or_eq_true, decide_eq_true_eq] at hs
      rcases hs with (h | h) | h
      · rw [replSpace, if_neg (ne_space_of_word h), replHyphen, if_neg (ne_hyphen_of_word h)]
        exact isWordChar_lowerChar_of h
      · subst h; decide
      · subst h; decide
    have hmem : lowerChar (replHyphen (replSpace c)) ∈
        ((s.map replSpace).map replHyphen).map lowerChar :=
      List.mem_map_of_mem _ (List.mem_map_of_mem _ (List.mem_map_of_mem _ hc))
    have hfil : (((s.map replSpace).map replHyphen).map lowerChar).filter isWordChar ≠ [] := by
      intro hnil
      have := List.mem_filter.mpr ⟨hmem, hw⟩
      rw [hnil] at this
      exact List.not_mem_nil _ this
    exact squeeze_ne_nil hfil

end NormalizeLemmas

section RunLemmas

theorem queryLoop_error_of_mem (env : RunEnv) {vm e : List Char} :
    ∀ (l : List (List Char)) (acc : List (List Char × List Char)),
      vm ∈ l → env.domifExec vm = .error e → ∃ m, queryLoop env l acc = .error m := by
  intro l
  induction l with
  | nil => intro acc h _; exact absurd h (List.not_mem_nil vm)
  | cons a rest ih =>
    intro acc hmem herr
    rcases List.mem_cons.mp hmem with h1 | h2
    · subst h1
      simp only [queryLoop, herr]
      exact ⟨_, rfl⟩
    · cases hd : env.domifExec a with
      | error e2 =>
        simp only [queryLoop, hd]
        exact ⟨_, rfl⟩
      | ok out =>
        cases hp : parseChecked (splitlinesPy out) env.ifaceMatch with
        | error u =>
          simp only [queryLoop, hd, hp]
          exact ih acc h2 herr
        | ok r =>
          cases r with
          | none =>
            simp only [queryLoop, hd, hp]
            exact ih acc h2 herr
          | some ip =>
            simp only [queryLoop, hd, hp]
            by_cases hip : ip.isEmpty = true
            · rw [if_pos hip]; exact ih acc h2 herr
            · rw [if_neg hip]; exact ih _ h2 herr

theorem queryLoop_ok_of_all (env : RunEnv) :
    ∀ (l : List (List Char)) (acc : List (List Char × List Char)),
      (∀ vm ∈ l, ∃ o, env.domifExec vm = .ok o) → ∃ r, queryLoop env l acc = .ok r := by
  intro l
  induction l with
  | nil => intro acc _; exact ⟨acc, rfl⟩
  | cons a rest ih =>
    intro acc hall
    obtain ⟨o, ho⟩ := hall a (List.mem_cons_self _ _)
    have hrest : ∀ vm ∈ rest, ∃ o2, env.domifExec vm = .ok o2 :=
      fun vm hv => hall vm (List.mem_cons_of_mem _ hv)
    cases hp : parseChecked (splitlinesPy o) env.ifaceMatch with
    | error u =>
      simp only [queryLoop, ho, hp]
      exact ih _ hrest
    | ok r =>
      cases r with
      | none =>
        simp only [queryLoop, ho, hp]
        exact ih _ hrest
      | some ip =>
        simp only [queryLoop, ho, hp]
        by_cases hip : ip.isEmpty = true
        · rw [if_pos hip]; exact ih _ hrest
        · rw [if_neg hip]; exact ih _ hrest

theorem map_fst_update {k v : List Char} :
    ∀ m : List (List Char × List Char),
      (m.map (fun p => if p.1 == k then (k, v) else p)).map Prod.fst = m.map Prod.fst := by
  intro m
  induction m with
  | nil => rfl
  | cons p t ih =>
    simp only [List.map_cons, ih, List.cons.injEq, and_true]
    by_cases hb : p.1 == k
    · rw [if_pos hb]
      exact (eq_of_beq hb).symm
    · rw [if_neg hb]

theorem mem_keys_dictInsert {m : List (List Char × List Char)} {k v a : List Char} :
    a ∈ (dictInsert m k v).map Prod.fst ↔ a = k ∨ a ∈ m.map Prod.fst := by
  unfold dictInsert
  by_cases h : m.any (fun p => p.1 == k) = true
  · rw [if_pos h, map_fst_update]
    obtain ⟨p, hp, hpk⟩ := List.any_eq_true.mp h
    have hk : k ∈ m.map Prod.fst := eq_of_beq hpk ▸ List.mem_map_of_mem Prod.fst hp
    constructor
    · exact Or.inr
    · rintro (rfl | h2)
      · exact hk
      · exact h2
  · rw [if_neg h, List.map_append]
    simp only [List.mem_append, List.map_cons, List.map_nil, List.mem_singleton]
    tauto

theorem queryLoop_keys_mono (env : RunEnv) {a : List Char} :
    ∀ (l : List (List Char)) (acc r : List (List Char × List Char)),
      a ∈ acc.map Prod.fst → queryLoop env l acc = .ok r → a ∈ r.map Prod.fst := by
  intro l
  induction l with
  | nil =>
    intro acc r ha h
    simp only [queryLoop, Except.ok.injEq] at h
    exact h ▸ ha
  | cons b rest ih =>
    intro acc r ha h
    cases hd : env.domifExec b with
    | error e =>
      simp only [queryLoop, hd] at h
      exact Except.noConfusion h
    | ok out =>
      cases hp : parseChecked (splitlinesPy out) env.ifaceMatch with
      | error u =>
        simp only [queryLoop, hd, hp] at h
        exact ih acc r ha h
      | ok r2 =>
        cases r2 with
        | none =>
          simp only [queryLoop, hd, hp] at h
          exact ih acc r ha h
        | some ip =>
          simp only [queryLoop, hd, hp] at h
          by_cases hip : ip.isEmpty = true
          · rw [if_pos hip] at h
            exact ih acc r ha h
          · rw [if_neg hip] at h
            exact ih _ r (mem_keys_dictInsert.mpr (Or.inr ha)) h

theorem queryLoop_keys_skip (env : RunEnv) {vm out : List Char}
    (hex : env.domifExec vm = .ok out)
    (hskip : parseChecked (splitlinesPy out) env.ifaceMatch = .ok none ∨
      parseChecked (splitlinesPy out) env.ifaceMatch = .error ()) :
    ∀ (l : List (List Char)) (acc r : List (List Char × List Char)),
      vm ∉ acc.map Prod.fst → queryLoop env l acc = .ok r → vm ∉ r.map Prod.fst := by
  intro l
  induction l with
  | nil =>
    intro acc r hna h
    simp only [queryLoop, Except.ok.injEq] at h
    exact h ▸ hna
  | cons b rest ih =>
    intro acc r hna h
    cases hd : env.domifExec b with
    | error e =>
      simp only [queryLoop, hd] at h
      exact Except.noConfusion h
    | ok out2 =>
      cases hp : parseChecked (splitlinesPy out2) env.ifaceMatch with
      | error u =>
        simp only [queryLoop, hd, hp] at h
        exact ih acc r hna h
      | ok r2 =>
        cases r2 with
        | none =>
          simp only [queryLoop, hd, hp] at h
          exact ih acc r hna h
        | some ip =>
          simp only [queryLoop, hd, hp] at h
          by_cases hip : ip.isEmpty = true
          · rw [if_pos hip] at h
            exact ih acc r hna h
          · rw [if_neg hip] at h
            refine ih _ r ?_ h
            intro hmem
            rcases mem_keys_dictInsert.mp hmem with h1 | h2
            · subst h1
              rw [hex] at hd
              have hout : out2 = out := (Except.ok.injEq _ _ ▸ hd).symm
              rw [hout] at hp
              rcases hskip with hs | hs
              · rw [hp] at hs
                exact absurd (Option.some.injEq _ _ ▸ Except.ok.injEq _ _ ▸ hs) (by simp)
              · rw [hp] at hs
                exact absurd hs (by simp)
            · exact hna h2

theorem queryLoop_keys_added (env : RunEnv) {vm out ip : List Char}
    (hex : env.domifExec vm = .ok out)
    (hpc : parseChecked (splitlinesPy out) env.ifaceMatch = .ok (some ip))
    (hne : ip.isEmpty = false) :
    ∀ (l : List (List Char)) (acc r : List (List Char × List Char)),
      vm ∈ l → queryLoop env l acc = .ok r → vm ∈ r.map Prod.fst := by
  intro l
  induction l with
  | nil => intro acc r hmem _; exact absurd hmem (List.not_mem_nil vm)
  | cons b rest ih =>
    intro acc r hmem h
    rcases List.mem_cons.mp hmem with h1 | h2
    · subst h1
      simp only [queryLoop, hex, hpc] at h
      rw [if_neg (by rw [hne]; exact Bool.false_ne_true)] at h
      exact queryLoop_keys_mono env rest _ r (mem_keys_dictInsert.mpr (Or.inl rfl)) h
    · cases hd : env.domifExec b with
      | error e =>
        simp only [queryLoop, hd] at h
        exact Except.noConfusion h
      | ok out2 =>
        cases hp : parseChecked (splitlinesPy out2) env.ifaceMatch with
        | error u =>
          simp only [queryLoop, hd, hp] at h
          exact ih acc r h2 h
        | ok r2 =>
          cases r2 with
          | none =>
            simp only [queryLoop, hd, hp] at h
            exact ih acc r h2 h
          | some ip2 =>
            simp only [queryLoop, hd, hp] at h
            by_cases hip : ip2.isEmpty = true
            · rw [if_pos hip] at h
              exact ih acc r h2 h
            · rw [if_neg hip] at h
              exact ih _ r h2 h

end RunLemmas

/-- Run environment with a failing enumeration command. -/
def envC5a : RunEnv :=
  ⟨.error "boom".toList, fun _ => .ok [], fun _ => true, fun _ => .ok false, none⟩

/-- Run environment where enumeration succeeds and the per-VM address command fails. -/
def envC5b : RunEnv :=
  ⟨.ok "vm1".toList, fun _ => .error "x".toList, fun _ => true, fun _ => .ok false, none⟩

/-- Run environment where every command succeeds but no output parses to an address. -/
def envC5c : RunEnv :=
  ⟨.ok "vm1".toList, fun _ => .ok [], fun _ => true, fun _ => .ok false, none⟩

/-- Run environment with two VMs: vm1 reports nothing, vm2 reports a good line. -/
def envC6 : RunEnv :=
  ⟨.ok "vm1\nvm2".toList,
   fun vm => .ok (if vm == "vm2".toList then " enp1s0 52:54 ipv4 10.0.0.5/24".toList else []),
   fun _ => true, fun s => .ok (matchEnW s), none⟩

/-- C1 counterexample: on a line whose interface name contains the substring
`ipv4` but whose protocol field is `ipv6`, the code returns that line's address
while the claimed protocol-field rule selects nothing, so the two disagree
under the default match-all pattern. -/
theorem thm_C1_counterexample :
    parse_virsh_domifaddr ["ipv4if x ipv6 fe80::1/64".toList] (fun _ => true) =
      some "fe80::1".toList ∧
    resolve_address_spec ["ipv4if x ipv6 fe80::1/64".toList] (fun _ => true) = none ∧
    parse_virsh_domifaddr ["ipv4if x ipv6 fe80::1/64".toList] (fun _ => true) ≠
      resolve_address_spec ["ipv4if x ipv6 fe80::1/64".toList] (fun _ => true) := by
  refine ⟨by decide, by decide, by decide⟩

/-- C1 (amended): for every list of report lines and every interface matcher,
`_parse_virsh_domifaddr` returns the `/`-stripped last token of the first line
that contains the substring `ipv4` anywhere (not necessarily as its protocol
field) and whose first whitespace token matches the pattern, and skips all
other lines. -/
theorem thm_C1_amended_selection :
    ∀ (lines : List (List Char)) (pattern : List Char → Bool),
      parse_virsh_domifaddr lines pattern = resolve_address_amended lines pattern :=
  parse_eq_amended

/-- C2 counterexample: with the default match-all name pattern, an interior
empty line of the command output is kept by the code, while the claimed rule
discards it, so the two disagree. -/
theorem thm_C2_counterexample :
    list_vms "a\n\nb".toList (fun _ => true) = ["a".toList, [], "b".toList] ∧
    list_vms_spec "a\n\nb".toList (fun _ => true) = ["a".toList, "b".toList] ∧
    list_vms "a\n\nb".toList (fun _ => true) ≠ list_vms_spec "a\n\nb".toList (fun _ => true) := by
  refine ⟨by decide, by decide, by decide⟩

/-- C2 (amended): for every VM-name pattern that rejects the empty name, the
enumeration step returns exactly the subset of lines whose prefix matches, in
original order, with empty lines discarded; empty lines are only dropped
through the pattern itself, not by a dedicated rule. -/
theorem thm_C2_amended_enumeration (output : List Char) (pattern : List Char → Bool)
    (h : pattern [] = false) : list_vms output pattern = list_vms_spec output pattern := by
  unfold list_vms list_vms_spec
  exact filter_comm_nonempty h (splitlinesPy output)

/-- Witness for C2 at a concrete output and the default interface-style matcher,
which rejects the empty name. -/
theorem thm_C2_witness :
    matchEnW [] = false ∧
    list_vms "en1\n\nen2".toList matchEnW = list_vms_spec "en1\n\nen2".toList matchEnW :=
  ⟨by decide, thm_C2_amended_enumeration _ matchEnW (by decide)⟩

/-- C3 counterexample: a raw name with no word character, space or hyphen
normalizes to the empty string, so the resulting identifier is not always
non-empty. -/
theorem thm_C3_counterexample : normalize "!".toList = [] := by decide

/-- C3 (amended): `normalize` is a total function, and its result is non-empty
exactly when the raw name contains at least one word character, space or
hyphen; for other inputs (such as `"!"`) it returns the empty string. -/
theorem thm_C3_nonempty_iff :
    ∀ s : List Char, normalize s ≠ [] ↔ ∃ c ∈ s, survivesChar c = true :=
  normalize_ne_nil_iff

/-- C4: the run does not close the session on every path: on the normal early
return for an empty filtered VM list, on an enumeration failure, and on a
per-VM address-command failure, the single `client.close()` at the end of
`parse` is never reached. -/
theorem thm_C4_session_not_closed :
    (parse ⟨.ok [], fun _ => .ok [], fun _ => true, fun _ => .ok false, none⟩).closed = false ∧
    (parse ⟨.error "unreachable".toList, fun _ => .ok [], fun _ => true, fun _ => .ok false,
      none⟩).closed = false ∧
    (parse ⟨.ok "vm1".toList, fun _ => .error "agent failure".toList, fun _ => true,
      fun _ => .ok false, none⟩).closed = false :=
  ⟨rfl, rfl, rfl⟩

/-- C5: a failing enumeration command makes the whole run fail; a failing
address command for any VM of the filtered list makes the whole run fail; and
when every command succeeds the run completes with an inventory, regardless of
how any VM's output parses. -/
theorem thm_C5_fatal_vs_skip :
    (∀ (env : RunEnv) (e : List Char), env.listExec = .error e →
      ∃ m, (parse env).result = .error m) ∧
    (∀ (env : RunEnv) (out vm e : List Char), env.listExec = .ok out →
      vm ∈ list_vms out env.namePat → env.domifExec vm = .error e →
      ∃ m, (parse env).result = .error m) ∧
    (∀ (env : RunEnv) (out : List Char), env.listExec = .ok out →
      (∀ vm ∈ list_vms out env.namePat, ∃ o, env.domifExec vm = .ok o) →
      ∃ hosts, (parse env).result = .ok hosts) := by
  refine ⟨?_, ?_, ?_⟩
  · intro env e he
    simp only [parse, he]
    exact ⟨_, rfl⟩
  · intro env out vm e hlist hmem hvm
    simp only [parse, hlist]
    have hne : (list_vms out env.namePat).isEmpty = false := by
      cases hl : list_vms out env.namePat
      · rw [hl] at hmem
        exact absurd hmem (List.not_mem_nil vm)
      · rfl
    rw [if_neg (by rw [hne]; exact Bool.false_ne_true)]
    obtain ⟨m, hm⟩ := queryLoop_error_of_mem env (list_vms out env.namePat) [] hmem hvm
    rw [hm]
    exact ⟨m, rfl⟩
  · intro env out hlist hall
    simp only [parse, hlist]
    by_cases hvms : (list_vms out env.namePat).isEmpty = true
    · rw [if_pos hvms]
      exact ⟨[], rfl⟩
    · rw [if_neg hvms]
      obtain ⟨r, hr⟩ := queryLoop_ok_of_all env (list_vms out env.namePat) [] hall
      rw [hr]
      exact ⟨_, rfl⟩

/-- Witness for C5 at three concrete environments: failing enumeration,
failing address query, and all commands succeeding. -/
theorem thm_C5_witness :
    (∃ m, (parse envC5a).result = .error m) ∧
    (∃ m, (parse envC5b).result = .error m) ∧
    (∃ hosts, (parse envC5c).result = .ok hosts) :=
  ⟨thm_C5_fatal_vs_skip.1 envC5a "boom".toList rfl,
   thm_C5_fatal_vs_skip.2.1 envC5b "vm1".toList "vm1".toList "x".toList rfl (by decide) rfl,
   thm_C5_fatal_vs_skip.2.2 envC5c "vm1".toList rfl (fun vm _ => ⟨[], rfl⟩)⟩

/-- C6: a report with no line satisfying the function's matching predicate
yields `none`; and at run level, when every address command succeeds, a VM
whose report parses to `none` or whose parsing raises contributes no entry
(identically in both cases), the run still completes with the remaining VMs,
and a VM whose report parses to a truthy address is included. -/
theorem thm_C6_no_match_skip :
    (∀ (lines : List (List Char)) (pattern : List Char → Bool),
      (∀ line ∈ lines, ¬(hasIpv4 line = true ∧ pattern ((tokenize line).headD []) = true)) →
      parse_virsh_domifaddr lines pattern = none) ∧
    (∀ (env : RunEnv) (out : List Char), env.listExec = .ok out →
      (∀ v ∈ list_vms out env.namePat, ∃ o, env.domifExec v = .ok o) →
      ∃ ips, queryLoop env (list_vms out env.namePat) [] = .ok ips ∧
        ((list_vms out env.namePat).isEmpty = false → (parse env).result =
          .ok (ips.map fun p => ⟨normalize p.1, p.2, userVar env.ansibleUser⟩)) ∧
        (∀ vm o, vm ∈ list_vms out env.namePat → env.domifExec vm = .ok o →
          (parseChecked (splitlinesPy o) env.ifaceMatch = .ok none ∨
            parseChecked (splitlinesPy o) env.ifaceMatch = .error ()) →
          vm ∉ ips.map Prod.fst) ∧
        (∀ vm o ip, vm ∈ list_vms out env.namePat → env.domifExec vm = .ok o →
          parseChecked (splitlinesPy o) env.ifaceMatch = .ok (some ip) → ip.isEmpty = false →
          vm ∈ ips.map Prod.fst)) := by
  refine ⟨parse_none_of_no_match, ?_⟩
  intro env out hlist hall
  obtain ⟨ips, hq⟩ := queryLoop_ok_of_all env (list_vms out env.namePat) [] hall
  refine ⟨ips, hq, ?_, ?_, ?_⟩
  · intro hne
    simp only [parse, hlist]
    rw [if_neg (by rw [hne]; exact Bool.false_ne_true), hq]
  · intro vm o hmem hex hskip
    exact queryLoop_keys_skip env hex hskip (list_vms out env.namePat) [] ips
      (by simp) hq
  · intro vm o ip hmem hex hpc hne
    exact queryLoop_keys_added env hex hpc hne (list_vms out env.namePat) [] ips hmem hq

/-- Witness for C6: a concrete report with no matching line parses to `none`,
and in a concrete two-VM run the VM with an unparseable (empty) report is
excluded while the other VM is included. -/
theorem thm_C6_witness :
    parse_virsh_domifaddr ["lo 0 ipv4 127.0.0.1/8".toList] matchEnW = none ∧
    ∃ ips, queryLoop envC6 (list_vms "vm1\nvm2".toList envC6.namePat) [] = .ok ips ∧
      "vm1".toList ∉ ips.map Prod.fst ∧ "vm2".toList ∈ ips.map Prod.fst := by
  constructor
  · exact thm_C6_no_match_skip.1 _ matchEnW (by decide)
  · obtain ⟨ips, h1, _h2, h3, h4⟩ :=
      thm_C6_no_match_skip.2 envC6 "vm1\nvm2".toList rfl (fun v _ => ⟨_, rfl⟩)
    refine ⟨ips, h1, ?_, ?_⟩
    · exact h3 "vm1".toList [] (by decide) rfl (Or.inl rfl)
    · exact h4 "vm2".toList " enp1s0 52:54 ipv4 10.0.0.5/24".toList "10.0.0.5".toList
        (by decide) rfl rfl rfl

/-- C7: the source normalization equals the specification's four-step reference
transform applied in order, and the three specification examples hold. -/
theorem thm_C7_four_step_transform :
    (∀ s : List Char, normalize s = refNormalize s) ∧
    normalize "My VM-1".toList = "my_vm_1".toList ∧
    normalize "web--app".toList = "web_app".toList ∧
    normalize "a!!b".toList = "ab".toList :=
  ⟨normalize_eq_refNormalize, by decide, by decide, by decide⟩

/-- C8: on the sample `virsh domifaddr` table with the default interface
pattern, the resolver returns exactly `192.168.1.86`, with the `/24` prefix
stripped and the `lo`/ipv4 and both ipv6 lines ignored. -/
theorem thm_C8_sample_table :
    parse_virsh_domifaddr sampleReport matchEnW = some "192.168.1.86".toList := by
  decide

/-- C9: `normalize` is idempotent on its own output. -/
theorem thm_C9_normalize_idempotent :
    ∀ x : List Char, normalize (normalize x) = normalize x :=
  normalize_idem

/-- C10: a line containing the substring `ipv4` tokenizes to at least one
token, and with any non-raising interface matcher the exception-aware model of
`_parse_virsh_domifaddr` never fails on token indexing: it always returns the
pure function's answer (an address or `none`). -/
theorem thm_C10_indexing_total :
    (∀ line : List Char, hasIpv4 line = true → tokenize line ≠ []) ∧
    (∀ (lines : List (List Char)) (pattern : List Char → Bool),
      parseChecked lines (fun s => .ok (pattern s)) =
        .ok (parse_virsh_domifaddr lines pattern)) :=
  ⟨fun _ h => tokenize_ne_nil_of_hasIpv4 h, parseChecked_pure⟩

/-- Witness for C10 at a concrete line and report. -/
theorem thm_C10_witness :
    hasIpv4 "x ipv4 y".toList = true ∧ tokenize "x ipv4 y".toList ≠ [] ∧
    parseChecked [" lo 0 ipv4 1.2.3.4/8".toList] (fun s => .ok (matchEnW s)) =
      .ok (parse_virsh_domifaddr [" lo 0 ipv4 1.2.3.4/8".toList] matchEnW) :=
  ⟨by decide, thm_C10_indexing_total.1 "x ipv4 y".toList (by decide),
   thm_C10_indexing_total.2 [" lo 0 ipv4 1.2.3.4/8".toList] matchEnW⟩

end VmInventory
